import Mathlib

/-!
# Concurrent traffic simulation: `MessageQueue` and `TrafficLight`

A shallow embedding of `src/TrafficLight.cpp`.

* The mutex makes every `send` and every `receive` body atomic, so a queue
  operation is a function on the queue content.  The condition-variable wait
  of `receive` is a guard: where the wait predicate is false the call does
  not return, which the embedding renders as the result `none`.
* One pass through the body of the `while (true)` loop of
  `cycleThroughPhases` is a function of the loop state and of what the
  environment supplies to that pass: the random draw and the clock readings.
* Towards the threads that call `receive`, a pass is not one step: the write
  to `_currentPhase` is made outside the mutex, before `send` takes it.  The
  interleaving model therefore splits a pass at its statements, and a
  `receive` can fall between any two of them.
* Time points are integer tick counts of `std::chrono::system_clock`; the
  number of ticks per millisecond is a parameter of the model.
-/

namespace TrafficSim

/-! ## MessageQueue -/

/-- The content of `_queue`, head first, tail (the `back()` element) last. -/
abbrev MessageQueue (T : Type) := List T

namespace MessageQueue

variable {T : Type}

/-- Modelled from the spec: the class declaration (`TrafficLight.h`) is not
among the sources; a newly constructed queue holds the empty sequence. -/
def new : MessageQueue T := []

/-- The body of `MessageQueue<T>::send`: `_queue.emplace_back(std::move(msg))`
under the lock. -/
def send (q : MessageQueue T) (msg : T) : MessageQueue T :=
  q ++ [msg]

/-- The body of `MessageQueue<T>::receive`.  The wait predicate is
`!_queue.empty()`; where it is false the call stays blocked (`none`).
Otherwise the call returns `_queue.back()` and leaves the cleared queue. -/
def receive (q : MessageQueue T) : Option (T × MessageQueue T) :=
  match q.getLast? with
  | none => none
  | some msg => some (msg, [])

/-- One queue operation issued by some thread. -/
inductive Op (T : Type) where
  | send (msg : T)
  | receive
  deriving DecidableEq

/-- Whether an operation is a `send`. -/
def Op.isSend : Op T → Bool
  | Op.send _ => true
  | Op.receive => false

/-- Effect of one operation on the queue content.  A `receive` whose wait
predicate is false does not return and leaves the content as it is. -/
def step (q : MessageQueue T) : Op T → MessageQueue T
  | Op.send msg => send q msg
  | Op.receive =>
    match receive q with
    | none => q
    | some (_, q') => q'

/-- Queue content after a sequence of operations. -/
def run (q : MessageQueue T) (ops : List (Op T)) : MessageQueue T :=
  ops.foldl step q

/-- What the `receive` operations of a trace yield, one entry for each
`receive` in order: `some v` where the call returns `v`, `none` where its wait
predicate is false. -/
def observe (q : MessageQueue T) : List (Op T) → List (Option T)
  | [] => []
  | Op.send msg :: ops => observe (send q msg) ops
  | Op.receive :: ops =>
    match receive q with
    | none => none :: observe q ops
    | some (msg, q') => some msg :: observe q' ops

end MessageQueue

/-! ## Single-slot latest-value cell -/

/-- Written from the spec's design note: a single-slot cell holding the latest
value, if any. -/
abbrev LatestCell (T : Type) := Option T

namespace LatestCell

variable {T : Type}

/-- Written from the spec: `send` overwrites the cell. -/
def send (_c : LatestCell T) (v : T) : LatestCell T := some v

/-- Written from the spec: `receive` is enabled iff the cell is full, returns
its content and empties the cell. -/
def receive (c : LatestCell T) : Option (T × LatestCell T) :=
  match c with
  | none => none
  | some v => some (v, none)

/-- What the `receive` operations of a trace yield on the cell. -/
def observe (c : LatestCell T) : List (MessageQueue.Op T) → List (Option T)
  | [] => []
  | MessageQueue.Op.send v :: ops => observe (send c v) ops
  | MessageQueue.Op.receive :: ops =>
    match receive c with
    | none => none :: observe c ops
    | some (v, c') => some v :: observe c' ops

end LatestCell

/-! ## TrafficLight -/

/-- Modelled from the spec: the enumeration is declared in `TrafficLight.h`,
which is not among the sources; it has the two values the code names. -/
inductive TrafficLightPhase where
  | red
  | green
  deriving DecidableEq

open TrafficLightPhase

/-- The data members of `TrafficLight` that the code reads and writes. -/
structure TrafficLight where
  _currentPhase : TrafficLightPhase
  _message : MessageQueue TrafficLightPhase
  deriving DecidableEq

namespace TrafficLight

/-- The constructor `TrafficLight::TrafficLight`: the phase starts red; the
message queue member is newly constructed. -/
def new : TrafficLight :=
  { _currentPhase := red, _message := MessageQueue.new }

/-- The accessor `TrafficLight::getCurrentPhase`. -/
def getCurrentPhase (tl : TrafficLight) : TrafficLightPhase :=
  tl._currentPhase

/-- The call `_message.receive()` made by a thread on the traffic light:
`none` while the call is blocked, otherwise the value returned and the traffic
light with its queue flushed. -/
def receive (tl : TrafficLight) : Option (TrafficLightPhase × TrafficLight) :=
  match MessageQueue.receive tl._message with
  | none => none
  | some (phase, q) => some (phase, { tl with _message := q })

end TrafficLight

/-- The loop of `TrafficLight::waitForGreen` over any source of `receive`
results.  `recv` is the `receive` call on the state `σ` the calls act on
(`none`: the call does not return).  `fuel` bounds the number of loop
iterations.  A result `some (s, n)` says that the method returned, after `n`
calls of `receive`, leaving the state `s`; `none` says that it has not
returned within `fuel` iterations or is blocked inside `receive`. -/
def waitForGreen {σ : Type} (recv : σ → Option (TrafficLightPhase × σ)) :
    Nat → σ → Option (σ × Nat)
  | 0, _ => none
  | fuel + 1, s =>
    match recv s with
    | none => none
    | some (phase, s') =>
      if phase = green then some (s', 1)
      else (waitForGreen recv fuel s').map (fun r => (r.1, r.2 + 1))

/-- The successive `receive` results seen by one caller, as an unending
sequence: the next call returns the head of the sequence. -/
def nextObservation (obs : Nat → TrafficLightPhase) :
    Option (TrafficLightPhase × (Nat → TrafficLightPhase)) :=
  some (obs 0, fun i => obs (i + 1))

/-! ## cycleThroughPhases -/

/-- The library contract of `std::uniform_int_distribution<int>`: an object
constructed with `(a, b)` produces the integers of the closed range from `a`
to `b`. -/
structure UniformIntDistribution where
  a : Int
  b : Int
  deriving DecidableEq

/-- The values a draw from the distribution can produce. -/
def UniformIntDistribution.produces (D : UniformIntDistribution) (d : Int) : Prop :=
  D.a ≤ d ∧ d ≤ D.b

instance (D : UniformIntDistribution) (d : Int) : Decidable (D.produces d) := by
  unfold UniformIntDistribution.produces
  exact inferInstance

/-- The distribution object `distr(4000, 6000)` of `cycleThroughPhases`. -/
def distr : UniformIntDistribution := { a := 4000, b := 6000 }

/-- The expression
`duration_cast<milliseconds>(system_clock::now() - lastUpdate).count()`:
the difference of two time points, in clock ticks, converted to whole
milliseconds with rounding toward zero.  `ticksPerMs` is the number of clock
ticks in one millisecond.  Tick counts and the millisecond count are 64-bit
in the code; readings of a real clock stay far inside that range, so the
integers are unbounded here. -/
def timeSinceLastUpdate (ticksPerMs : Int) (now lastUpdate : Int) : Int :=
  (now - lastUpdate).tdiv ticksPerMs

/-- The state of the loop in `cycleThroughPhases`: the traffic light it drives
and the local stop watch `lastUpdate`. -/
structure CycleState where
  light : TrafficLight
  lastUpdate : Int
  deriving DecidableEq

/-- What the environment supplies to one pass through the loop body: the value
drawn for `cycleDuration`, the clock reading used for the elapsed time, and
the clock reading taken when the stop watch is reset. -/
structure CycleInput where
  cycleDuration : Int
  now : Int
  nowReset : Int
  deriving DecidableEq

/-- The statements of `cycleThroughPhases` before its loop: the stop watch is
initialised with a clock reading. -/
def cycleStart (tl : TrafficLight) (now : Int) : CycleState :=
  { light := tl, lastUpdate := now }

/-- One pass through the body of the `while (true)` loop of
`cycleThroughPhases`.  The 1 ms sleep changes no variable and shows only in
the clock readings.  `std::move` applied to the enumeration value copies it,
so `_currentPhase` keeps the new phase after the `send`. -/
def cycleIteration (ticksPerMs : Int) (s : CycleState) (i : CycleInput) : CycleState :=
  let cycleDuration := i.cycleDuration
  let elapsed := timeSinceLastUpdate ticksPerMs i.now s.lastUpdate
  if elapsed ≥ cycleDuration then
    let phase := if s.light._currentPhase = red then green else red
    { light := { _currentPhase := phase,
                 _message := MessageQueue.send s.light._message phase },
      lastUpdate := i.nowReset }
  else s

/-- The loop of `cycleThroughPhases` run for as many passes as there are
inputs. -/
def cycleThroughPhases (ticksPerMs : Int) (s : CycleState) (is : List CycleInput) :
    CycleState :=
  is.foldl (cycleIteration ticksPerMs) s

/-- The phase published by the n-th transition of an alternation that starts
from red, counting from one: green at odd positions, red at even ones. -/
def nthPublished (n : Nat) : TrafficLightPhase :=
  if n % 2 = 1 then green else red

/-! ## Lemmas on the queue -/

section QueueLemmas

variable {T : Type}

open MessageQueue

theorem foldl_send_eq_append (vs : List T) (q : MessageQueue T) :
    vs.foldl send q = q ++ vs := by
  induction vs generalizing q with
  | nil => simp
  | cons v vs ih => simp [List.foldl_cons, ih, send]

theorem receive_nil : receive ([] : MessageQueue T) = none := rfl

theorem receive_append_singleton (q : MessageQueue T) (v : T) :
    receive (q ++ [v]) = some (v, []) := by
  simp [receive]

theorem receive_eq_some_iff (q : MessageQueue T) (v : T) (q' : MessageQueue T) :
    receive q = some (v, q') ↔ q.getLast? = some v ∧ q' = [] := by
  unfold receive
  cases h : q.getLast? with
  | none => simp
  | some w =>
    simp only [Option.some.injEq, Prod.mk.injEq]
    constructor
    · rintro ⟨h1, h2⟩
      exact ⟨h1, h2.symm⟩
    · rintro ⟨h1, h2⟩
      exact ⟨h1, h2.symm⟩

theorem step_receive_eq_nil (q : MessageQueue T) : step q Op.receive = [] := by
  unfold step receive
  cases h : q.getLast? with
  | none =>
    simp only
    exact List.getLast?_eq_none_iff.mp h
  | some w => rfl

theorem run_append_singleton (q : MessageQueue T) (ops : List (Op T)) (op : Op T) :
    run q (ops ++ [op]) = step (run q ops) op := by
  simp [run, List.foldl_append]

end QueueLemmas

/-! ## Lemmas on the traffic light -/

section LightLemmas

open MessageQueue

theorem toggle_nthPublished (n : Nat) :
    (if nthPublished n = red then green else red) = nthPublished (n + 1) := by
  unfold nthPublished
  rcases Nat.mod_two_eq_zero_or_one n with h | h
  · have h1 : (n + 1) % 2 = 1 := by omega
    simp [h, h1]
  · have h1 : (n + 1) % 2 = 0 := by omega
    simp [h, h1]

theorem cycleIteration_of_ge (ticksPerMs : Int) (s : CycleState) (i : CycleInput)
    (h : timeSinceLastUpdate ticksPerMs i.now s.lastUpdate ≥ i.cycleDuration) :
    cycleIteration ticksPerMs s i =
      { light :=
          { _currentPhase := if s.light._currentPhase = red then green else red,
            _message := s.light._message ++
              [if s.light._currentPhase = red then green else red] },
        lastUpdate := i.nowReset } := by
  simp [cycleIteration, h, send]

theorem cycleIteration_of_lt (ticksPerMs : Int) (s : CycleState) (i : CycleInput)
    (h : timeSinceLastUpdate ticksPerMs i.now s.lastUpdate < i.cycleDuration) :
    cycleIteration ticksPerMs s i = s := by
  have h' : ¬ (timeSinceLastUpdate ticksPerMs i.now s.lastUpdate ≥ i.cycleDuration) :=
    not_le.mpr h
  simp [cycleIteration, h']

/-- The alternation invariant of the driver: position `k` of the queue holds
the phase published by transition `k + 1`, and the current phase is the one
published last (red when nothing has been published). -/
theorem alternation_invariant (ticksPerMs t0 : Int) (is : List CycleInput) :
    (∀ k, k < (cycleThroughPhases ticksPerMs (cycleStart TrafficLight.new t0) is).light._message.length →
      (cycleThroughPhases ticksPerMs (cycleStart TrafficLight.new t0) is).light._message[k]?
        = some (nthPublished (k + 1))) ∧
    (cycleThroughPhases ticksPerMs (cycleStart TrafficLight.new t0) is).light._currentPhase
      = nthPublished
          (cycleThroughPhases ticksPerMs (cycleStart TrafficLight.new t0) is).light._message.length := by
  induction is using List.reverseRecOn with
  | nil =>
    constructor
    · intro k hk
      simp [cycleThroughPhases, cycleStart, TrafficLight.new, MessageQueue.new] at hk
    · rfl
  | append_singleton is i ih =>
    have hrun : cycleThroughPhases ticksPerMs (cycleStart TrafficLight.new t0) (is ++ [i])
        = cycleIteration ticksPerMs
            (cycleThroughPhases ticksPerMs (cycleStart TrafficLight.new t0) is) i := by
      simp [cycleThroughPhases, List.foldl_append]
    rw [hrun]
    generalize cycleThroughPhases ticksPerMs (cycleStart TrafficLight.new t0) is = s at ih
    obtain ⟨ihq, ihp⟩ := ih
    rcases lt_or_le (timeSinceLastUpdate ticksPerMs i.now s.lastUpdate) i.cycleDuration
      with h | h
    · rw [cycleIteration_of_lt ticksPerMs s i h]
      exact ⟨ihq, ihp⟩
    · rw [cycleIteration_of_ge ticksPerMs s i h]
      simp only [List.length_append, List.length_singleton]
      rw [ihp, toggle_nthPublished]
      refine ⟨?_, rfl⟩
      intro k hk
      rcases Nat.lt_or_ge k s.light._message.length with hlt | hge
      · rw [List.getElem?_append_left hlt]
        exact ihq k hlt
      · have hk' : k = s.light._message.length := by omega
        subst hk'
        simp

theorem tdiv_lt_of_lt_mul (a b c : Int) (hb : 0 < b) (hc : 0 < c) (h : a < c * b) :
    a.tdiv b < c := by
  rcases lt_or_le a 0 with ha | ha
  · have h1 : 0 ≤ (-a).tdiv b := Int.tdiv_nonneg (by omega) hb.le
    have h2 : a.tdiv b = -((-a).tdiv b) := by
      rw [← Int.neg_tdiv, neg_neg]
    omega
  · rw [Int.tdiv_eq_ediv ha hb.le]
    exact Int.ediv_lt_of_lt_mul hb h

theorem le_tdiv_of_mul_le (a b c : Int) (hb : 0 < b) (hc : 0 ≤ c) (h : c * b ≤ a) :
    c ≤ a.tdiv b := by
  have ha : 0 ≤ a := le_trans (mul_nonneg hc hb.le) h
  rw [Int.tdiv_eq_ediv ha hb.le]
  exact Int.le_ediv_of_mul_le hb h

theorem waitForGreen_all_red (fuel : Nat) (obs : Nat → TrafficLightPhase)
    (h : ∀ j, j < fuel → obs j = red) :
    waitForGreen nextObservation fuel obs = none := by
  induction fuel generalizing obs with
  | zero => rfl
  | succ fuel ih =>
    have h0 : obs 0 = red := h 0 (Nat.succ_pos fuel)
    have ht : waitForGreen nextObservation fuel (fun i => obs (i + 1)) = none :=
      ih (fun i => obs (i + 1)) (fun j hj => h (j + 1) (Nat.succ_lt_succ hj))
    simp [waitForGreen, nextObservation, h0, ht]

theorem waitForGreen_first_green (k : Nat) (obs : Nat → TrafficLightPhase)
    (hk : obs k = green) (hred : ∀ j, j < k → obs j = red) (fuel : Nat) (hf : k < fuel) :
    waitForGreen nextObservation fuel obs = some (fun i => obs (i + (k + 1)), k + 1) := by
  induction k generalizing obs fuel with
  | zero =>
    obtain ⟨f, rfl⟩ : ∃ f, fuel = f + 1 := ⟨fuel - 1, by omega⟩
    simp [waitForGreen, nextObservation, hk]
  | succ k ih =>
    obtain ⟨f, rfl⟩ : ∃ f, fuel = f + 1 := ⟨fuel - 1, by omega⟩
    have h0 : obs 0 = red := hred 0 (Nat.succ_pos k)
    have ht := ih (fun i => obs (i + 1)) hk
      (fun j hj => hred (j + 1) (Nat.succ_lt_succ hj)) f (by omega)
    simp only [waitForGreen, nextObservation, h0, ht]
    simp only [reduceCtorEq, if_false, Option.map_some', Option.some.injEq, Prod.mk.injEq,
      and_true]
    funext i
    rfl

end LightLemmas

/-! ## The claims on the queue -/

section QueueClaims

variable {T : Type}

open MessageQueue

/-- C1, flush-to-latest: for every initial content `q` and every non-empty
list `vs`, sending the elements of `vs` in order and then calling `receive`
once makes `receive` return the last element of `vs` and leaves the queue
empty. -/
theorem C1_flush_to_latest (q : MessageQueue T) (vs : List T) (h : vs ≠ []) :
    receive (vs.foldl send q) = some (vs.getLast h, []) := by
  rw [foldl_send_eq_append, receive_eq_some_iff]
  refine ⟨?_, rfl⟩
  rw [List.getLast?_append_of_ne_nil q h, List.getLast?_eq_getLast]

theorem C1_flush_to_latest_witness :
    receive ([4, 5, 6].foldl send ([1, 2, 3] : MessageQueue Nat)) = some (6, []) :=
  C1_flush_to_latest [1, 2, 3] [4, 5, 6] (by decide)

/-- C2, no return without a fresh send: `receive` yields nothing on a newly
constructed queue; it yields nothing on the queue a returning `receive` has
left; and whenever `receive` returns a value after a trace of operations on a
newly constructed queue, the last operation of that trace is a `send`, of the
very value returned, so that a `send` lies after construction and after every
earlier `receive`. -/
theorem C2_receive_needs_fresh_send :
    receive (MessageQueue.new : MessageQueue T) = none ∧
    (∀ (q : MessageQueue T) (v : T) (q' : MessageQueue T),
      receive q = some (v, q') → receive q' = none) ∧
    (∀ (ops : List (Op T)) (v : T) (q' : MessageQueue T),
      receive (run MessageQueue.new ops) = some (v, q') →
        ∃ pre, ops = pre ++ [Op.send v]) := by
  refine ⟨rfl, ?_, ?_⟩
  · intro q v q' h
    rw [((receive_eq_some_iff q v q').mp h).2]
    rfl
  · intro ops v q' h
    induction ops using List.reverseRecOn with
    | nil => simp [run, MessageQueue.new, receive] at h
    | append_singleton pre op _ =>
      rw [run_append_singleton] at h
      cases op with
      | receive =>
        rw [step_receive_eq_nil, receive_nil] at h
        cases h
      | send w =>
        simp only [step, send, receive_append_singleton, Option.some.injEq,
          Prod.mk.injEq] at h
        exact ⟨pre, by rw [h.1]⟩

/-- C3, `send` only appends: `send q v` is `q` with `v` added at the tail, so
the length grows by one, every position of `q` keeps its element, and the new
last position holds `v`; a `receive` that returns leaves nothing in the queue,
and in a trace a `send` step appends while a `receive` step leaves the queue
empty. -/
theorem C3_send_appends (q : MessageQueue T) (v : T) :
    send q v = q ++ [v] ∧
    (send q v).length = q.length + 1 ∧
    (∀ i, i < q.length → (send q v)[i]? = q[i]?) ∧
    (send q v)[q.length]? = some v ∧
    (∀ (w : T) (q' : MessageQueue T), receive q = some (w, q') → q' = []) ∧
    step q (Op.send v) = q ++ [v] ∧
    step q Op.receive = [] := by
  refine ⟨rfl, by simp [send], ?_, by simp [send], ?_, rfl, step_receive_eq_nil q⟩
  · intro i hi
    simp [send, List.getElem?_append_left hi]
  · intro w q' h
    exact ((receive_eq_some_iff q w q').mp h).2

/-- C8, the queue and the single-slot cell are observationally equivalent:
for every trace of `send` and `receive` operations, the queue started with any
content `q` and the cell started with the last element of `q` (empty when `q`
is) yield the same result at every `receive`: blocked at the same points, the
same value elsewhere.  In particular a new queue and an empty cell agree. -/
theorem C8_queue_equiv_latest_cell (ops : List (Op T)) :
    (∀ q : MessageQueue T, observe q ops = LatestCell.observe q.getLast? ops) ∧
    observe (MessageQueue.new : MessageQueue T) ops = LatestCell.observe none ops := by
  have key : ∀ q : MessageQueue T, observe q ops = LatestCell.observe q.getLast? ops := by
    induction ops with
    | nil => intro q; rfl
    | cons op ops ih =>
      intro q
      cases op with
      | send v =>
        simp only [observe, LatestCell.observe]
        rw [ih (send q v)]
        simp [send, LatestCell.send]
      | receive =>
        simp only [observe, LatestCell.observe, receive, LatestCell.receive]
        cases h : q.getLast? with
        | none =>
          simp only
          rw [ih q, h]
        | some w =>
          simp only
          rw [ih []]
          rfl
  exact ⟨key, key []⟩

end QueueClaims

/-! ## The claims on the traffic light -/

section LightClaims

open MessageQueue

/-- C4, the published phases alternate: after any number of passes of the loop
of `cycleThroughPhases` on a freshly constructed traffic light, whatever the
clock readings and drawn thresholds, the n-th value passed to `send` (the
queue, never received from, records them in order) is green for odd n and red
for even n; two consecutive published values differ; the current phase is red
or green, namely the value published last, or red if none was. -/
theorem C4_published_phases_alternate (ticksPerMs t0 : Int) (is : List CycleInput) :
    (∀ n, n < (cycleThroughPhases ticksPerMs (cycleStart TrafficLight.new t0) is).light._message.length →
      (cycleThroughPhases ticksPerMs (cycleStart TrafficLight.new t0) is).light._message[n]?
        = some (if (n + 1) % 2 = 1 then green else red)) ∧
    (∀ n p p',
      (cycleThroughPhases ticksPerMs (cycleStart TrafficLight.new t0) is).light._message[n]?
        = some p →
      (cycleThroughPhases ticksPerMs (cycleStart TrafficLight.new t0) is).light._message[n + 1]?
        = some p' →
      p ≠ p') ∧
    ((cycleThroughPhases ticksPerMs (cycleStart TrafficLight.new t0) is).light.getCurrentPhase = red ∨
      (cycleThroughPhases ticksPerMs (cycleStart TrafficLight.new t0) is).light.getCurrentPhase
        = green) ∧
    (cycleThroughPhases ticksPerMs (cycleStart TrafficLight.new t0) is).light.getCurrentPhase
      = nthPublished
          (cycleThroughPhases ticksPerMs (cycleStart TrafficLight.new t0) is).light._message.length := by
  obtain ⟨hq, hp⟩ := alternation_invariant ticksPerMs t0 is
  generalize cycleThroughPhases ticksPerMs (cycleStart TrafficLight.new t0) is = s at hq hp
  refine ⟨fun n hn => hq n hn, ?_, ?_, hp⟩
  · intro n p p' h1 h2
    have hn1 : n + 1 < s.light._message.length := by
      by_contra hcon
      rw [List.getElem?_eq_none (not_lt.mp hcon)] at h2
      cases h2
    have e1 := hq n (by omega)
    have e2 := hq (n + 1) hn1
    rw [h1] at e1
    rw [h2] at e2
    simp only [Option.some.injEq] at e1 e2
    rw [e1, e2, ← toggle_nthPublished (n + 1)]
    cases nthPublished (n + 1) <;> simp
  · unfold TrafficLight.getCurrentPhase
    cases s.light._currentPhase
    · exact Or.inl rfl
    · exact Or.inr rfl

/-- C6 as stated fails: the distribution `distr(4000, 6000)` can produce 6000,
which is not below 6000. -/
theorem C6_half_open_range_fails :
    ¬ (∀ d : Int, distr.produces d → 4000 ≤ d ∧ d < 6000) := by
  intro h
  have h6 := (h 6000 (by decide)).2
  exact absurd h6 (by decide)

/-- C6 amended: every threshold the draw in `cycleThroughPhases` can produce
lies in the closed interval from 4000 ms to 6000 ms. -/
theorem C6_closed_range (d : Int) (h : distr.produces d) : 4000 ≤ d ∧ d ≤ 6000 :=
  h

theorem C6_closed_range_witness : distr.produces 6000 ∧ ((4000 : Int) ≤ 6000 ∧ (6000 : Int) ≤ 6000) :=
  ⟨by decide, C6_closed_range 6000 (by decide)⟩

/-- C7, `waitForGreen` returns at the first green observation: when the
successive `receive` results are red at positions below `k` and green at
position `k`, the method returns after exactly `k + 1` calls of `receive`,
leaving the later observations unconsumed, and has not returned after `k`
iterations or fewer; when every observation is red it never returns. -/
theorem C7_waitForGreen_first_green (obs : Nat → TrafficLightPhase) :
    (∀ k, obs k = green → (∀ j, j < k → obs j = red) →
      (∀ fuel, k < fuel →
        waitForGreen nextObservation fuel obs = some (fun i => obs (i + (k + 1)), k + 1)) ∧
      (∀ fuel, fuel ≤ k → waitForGreen nextObservation fuel obs = none)) ∧
    ((∀ j, obs j = red) → ∀ fuel, waitForGreen nextObservation fuel obs = none) := by
  refine ⟨?_, ?_⟩
  · intro k hk hred
    refine ⟨fun fuel hf => waitForGreen_first_green k obs hk hred fuel hf, ?_⟩
    intro fuel hf
    exact waitForGreen_all_red fuel obs (fun j hj => hred j (by omega))
  · intro hred fuel
    exact waitForGreen_all_red fuel obs (fun j _ => hred j)

theorem C7_waitForGreen_first_green_witness :
    (waitForGreen nextObservation 5 (fun n => if n = 2 then green else red)).map Prod.snd
      = some 3 := by
  have h := ((C7_waitForGreen_first_green (fun n => if n = 2 then green else red)).1 2
    (by decide) (fun j hj => by interval_cases j <;> decide)).1 5 (by decide)
  rw [h]
  rfl

/-- C9, the cycle duration is between 4 and 6 seconds: in one pass of the
loop, for every threshold the draw can produce, an elapsed time below 4000 ms
leaves the state unchanged (no transition), and an elapsed time of at least
6000 ms flips the phase and publishes it; the same holds for the elapsed time
measured in clock ticks, before conversion to milliseconds. -/
theorem C9_cycle_between_4_and_6_seconds (ticksPerMs : Int) (s : CycleState)
    (i : CycleInput) (hd : distr.produces i.cycleDuration) (hticks : 0 < ticksPerMs) :
    (timeSinceLastUpdate ticksPerMs i.now s.lastUpdate < 4000 →
      cycleIteration ticksPerMs s i = s) ∧
    (6000 ≤ timeSinceLastUpdate ticksPerMs i.now s.lastUpdate →
      (cycleIteration ticksPerMs s i).light._currentPhase ≠ s.light._currentPhase ∧
      (cycleIteration ticksPerMs s i).light._message
        = s.light._message ++ [(cycleIteration ticksPerMs s i).light._currentPhase]) ∧
    (i.now - s.lastUpdate < 4000 * ticksPerMs → cycleIteration ticksPerMs s i = s) ∧
    (6000 * ticksPerMs ≤ i.now - s.lastUpdate →
      (cycleIteration ticksPerMs s i).light._currentPhase ≠ s.light._currentPhase ∧
      (cycleIteration ticksPerMs s i).light._message
        = s.light._message ++ [(cycleIteration ticksPerMs s i).light._currentPhase]) := by
  obtain ⟨hlo, hhi⟩ := hd
  have hlo' : (4000 : Int) ≤ i.cycleDuration := hlo
  have hhi' : i.cycleDuration ≤ (6000 : Int) := hhi
  have low : timeSinceLastUpdate ticksPerMs i.now s.lastUpdate < 4000 →
      cycleIteration ticksPerMs s i = s := fun h =>
    cycleIteration_of_lt ticksPerMs s i (lt_of_lt_of_le h hlo')
  have high : 6000 ≤ timeSinceLastUpdate ticksPerMs i.now s.lastUpdate →
      (cycleIteration ticksPerMs s i).light._currentPhase ≠ s.light._currentPhase ∧
      (cycleIteration ticksPerMs s i).light._message
        = s.light._message ++ [(cycleIteration ticksPerMs s i).light._currentPhase] := by
    intro h
    rw [cycleIteration_of_ge ticksPerMs s i (le_trans hhi' h)]
    refine ⟨?_, rfl⟩
    cases s.light._currentPhase <;> simp
  refine ⟨low, high, ?_, ?_⟩
  · intro h
    exact low (tdiv_lt_of_lt_mul _ _ _ hticks (by decide) h)
  · intro h
    exact high (le_tdiv_of_mul_le _ _ _ hticks (by decide) h)

theorem C9_cycle_between_4_and_6_seconds_witness :
    distr.produces 5000 ∧ (0 : Int) < 1000 ∧
    cycleIteration 1000 ⟨⟨red, []⟩, 0⟩ ⟨5000, 3999999, 3999999⟩ = ⟨⟨red, []⟩, 0⟩ ∧
    (cycleIteration 1000 ⟨⟨red, []⟩, 0⟩ ⟨5000, 6000000, 6000001⟩).light._currentPhase ≠ red :=
  ⟨by decide, by decide,
    (C9_cycle_between_4_and_6_seconds 1000 ⟨⟨red, []⟩, 0⟩ ⟨5000, 3999999, 3999999⟩
      (by decide) (by decide)).2.2.1 (by decide),
    ((C9_cycle_between_4_and_6_seconds 1000 ⟨⟨red, []⟩, 0⟩ ⟨5000, 6000000, 6000001⟩
      (by decide) (by decide)).2.2.2 (by decide)).1⟩

/-- C10, one pass of the loop of `cycleThroughPhases` on the explicit state:
when the elapsed milliseconds reach the drawn threshold, the phase becomes the
opposite phase, exactly that new phase is appended to the queue, and
`lastUpdate` becomes the clock reading taken at the reset; when they stay
below the threshold, phase, queue and `lastUpdate` are all unchanged. -/
theorem C10_iteration_postcondition (ticksPerMs : Int) (s : CycleState) (i : CycleInput) :
    (timeSinceLastUpdate ticksPerMs i.now s.lastUpdate ≥ i.cycleDuration →
      (s.light._currentPhase = red →
        (cycleIteration ticksPerMs s i).light._currentPhase = green) ∧
      (s.light._currentPhase = green →
        (cycleIteration ticksPerMs s i).light._currentPhase = red) ∧
      (cycleIteration ticksPerMs s i).light._message
        = s.light._message ++ [(cycleIteration ticksPerMs s i).light._currentPhase] ∧
      (cycleIteration ticksPerMs s i).lastUpdate = i.nowReset) ∧
    (timeSinceLastUpdate ticksPerMs i.now s.lastUpdate < i.cycleDuration →
      (cycleIteration ticksPerMs s i).light._currentPhase = s.light._currentPhase ∧
      (cycleIteration ticksPerMs s i).light._message = s.light._message ∧
      (cycleIteration ticksPerMs s i).lastUpdate = s.lastUpdate) := by
  constructor
  · intro h
    rw [cycleIteration_of_ge ticksPerMs s i h]
    refine ⟨?_, ?_, rfl, rfl⟩
    · intro hr
      simp [hr]
    · intro hg
      simp [hg]
  · intro h
    rw [cycleIteration_of_lt ticksPerMs s i h]
    exact ⟨rfl, rfl, rfl⟩

end LightClaims

end TrafficSim
